import Mathlib

/-!
Verification of the document-chunking and RAG-orchestration core of the
`aws-serverless-next` repository (backend: `src/services/chunker.ts`,
`src/services/llm.ts`, `src/services/pinecone.ts`, `src/handlers/ask.ts`,
`src/handlers/ingest.ts`).

Strings are modelled as `List Char` (`Str` below).  JavaScript's `\s`
whitespace class is modelled by its ASCII part (space, tab, newline,
carriage return, vertical tab, form feed), which covers every character
the chunker's callers and tests use.  Chunk sizes are modelled as natural
numbers.  For `maxChunkSize = 0` the JavaScript hard-split loop
(`for (let i = 0; i < sentence.length; i += maxSize)`) never terminates,
so every theorem about the chunker assumes `0 < maxChunkSize`; the Lean
slicing helper runs on fuel and is only meaningful under that assumption.
-/

/-- Strings are lists of characters. -/
abbrev Str := List Char

/-- The ASCII part of JavaScript's `\s` class, used by `String.trim` and by
the `\s` occurrences in the chunker's regexes. -/
def isWS (c : Char) : Bool :=
  c = ' ' || c = '\t' || c = '\n' || c = '\r' || c = '\x0b' || c = '\x0c'

/-- JavaScript `String.prototype.trim`: drop leading and trailing whitespace. -/
def trimStr (l : Str) : Str :=
  ((l.dropWhile isWS).reverse.dropWhile isWS).reverse

/-- Is this character a sentence terminator (`[.!?]`)? -/
def isTermChar (c : Char) : Bool :=
  c = '.' || c = '!' || c = '?'

/-- Scanner for `text.split(/(?<=[.!?])\s+/)` (chunker.ts line 134).
`segs` are the finished segments, `cur` the current segment reversed (so its
head is the previous character of the original string, the one the lookbehind
inspects), and `inSep` records that we are inside a separator, i.e. consuming
the greedy maximal whitespace run `\s+` that started right after a
terminator. -/
def sentGo : Str → List Str → Str → Bool → List Str
  | [], segs, cur, _ => segs ++ [cur.reverse]
  | c :: rest, segs, cur, true =>
    if isWS c then sentGo rest segs cur true
    else sentGo rest segs [c] false
  | c :: rest, segs, cur, false =>
    if isWS c && (match cur with
                  | p :: _ => isTermChar p
                  | [] => false) then
      sentGo rest (segs ++ [cur.reverse]) [] true
    else
      sentGo rest segs (c :: cur) false

/-- `text.split(/(?<=[.!?])\s+/)` from `splitIntoSentences`. -/
def splitSent (text : Str) : List Str := sentGo text [] [] false

/-- `splitIntoSentences` (chunker.ts lines 133-136): split at sentence
terminators and drop whitespace-only pieces. -/
def splitIntoSentences (text : Str) : List Str :=
  (splitSent text).filter (fun s => 0 < (trimStr s).length)

/-- Scanner for `trimmedContent.split(/\n\s*\n/)` (chunker.ts line 251).
A separator match is a newline, then greedy whitespace, then a newline — so
it runs from an opening newline to the last newline of the maximal whitespace
run that starts there.  `pend = some (buf, tail, saw)` means we are inside
such a run: `buf` holds the consumed run (reversed), `tail` the consumed
characters after the last newline of the run (reversed), and `saw` whether a
second newline has appeared (i.e. the run really is a separator). -/
def paraGo : Str → List Str → Str → Option (Str × Str × Bool) → List Str
  | [], segs, cur, none => segs ++ [cur.reverse]
  | [], segs, cur, some (buf, tail, saw) =>
    if saw then segs ++ [cur.reverse, tail.reverse]
    else segs ++ [(buf ++ cur).reverse]
  | c :: rest, segs, cur, none =>
    if c = '\n' then paraGo rest segs cur (some (['\n'], [], false))
    else paraGo rest segs (c :: cur) none
  | c :: rest, segs, cur, some (buf, tail, saw) =>
    if isWS c then
      if c = '\n' then paraGo rest segs cur (some (c :: buf, [], true))
      else paraGo rest segs cur (some (c :: buf, c :: tail, saw))
    else
      if saw then paraGo rest (segs ++ [cur.reverse]) (c :: tail) none
      else paraGo rest segs (c :: (buf ++ cur)) none

/-- `content.split(/\n\s*\n/)` from `chunkDocument` (chunker.ts line 251). -/
def splitParas (l : Str) : List Str := paraGo l [] [] none

/-- Fuel-driven version of the fixed-width slicing
`sentence.slice(i, i + maxSize)` for `i = 0, maxSize, 2*maxSize, ...`
(chunker.ts lines 156-158, before the per-slice `.trim()`).  Fuel
`l.length` always suffices when `0 < maxSize`; the JavaScript loop diverges
when `maxSize = 0`. -/
def chunksOfGo (maxSize : Nat) : Nat → Str → List Str
  | _, [] => []
  | 0, _ :: _ => []
  | fuel + 1, c :: rest =>
    (c :: rest).take maxSize :: chunksOfGo maxSize fuel ((c :: rest).drop maxSize)

/-- The list of fixed-width `maxSize` slices of `l`. -/
def chunksOf (maxSize : Nat) (l : Str) : List Str :=
  chunksOfGo maxSize l.length l

/-- The sentence-packing loop of `splitLargeParagraph` (chunker.ts lines
150-174).  State: `chunks` = emitted chunks, `cur` = the running buffer
`currentChunk`. -/
def slpGo (maxSize : Nat) : List Str → List Str → Str → List Str
  | [], chunks, cur => if cur = [] then chunks else chunks ++ [trimStr cur]
  | s :: rest, chunks, cur =>
    if maxSize < s.length then
      let flushed := if cur = [] then chunks else chunks ++ [trimStr cur]
      slpGo maxSize rest (flushed ++ (chunksOf maxSize s).map trimStr) []
    else if maxSize < cur.length + s.length + 1 then
      slpGo maxSize rest (if cur = [] then chunks else chunks ++ [trimStr cur]) s
    else
      slpGo maxSize rest chunks (if cur = [] then s else cur ++ ' ' :: s)

/-- `splitLargeParagraph` (chunker.ts lines 141-177). -/
def splitLargeParagraph (paragraph : Str) (maxSize : Nat) : List Str :=
  if paragraph.length ≤ maxSize then [paragraph]
  else slpGo maxSize (splitIntoSentences paragraph) [] []

/-- The loop of `mergeSmallChunks` (chunker.ts lines 190-208).  State:
`merged` = emitted chunks, `cur` = `currentChunk` (`[]` is JavaScript's falsy
empty string). -/
def mergeGo (minSize maxSize : Nat) : List Str → List Str → Str → List Str × Str
  | [], merged, cur => (merged, cur)
  | ch :: rest, merged, cur =>
    if cur = [] then mergeGo minSize maxSize rest merged ch
    else if cur.length < minSize then
      if (cur ++ ' ' :: ch).length ≤ maxSize then
        mergeGo minSize maxSize rest merged (cur ++ ' ' :: ch)
      else
        mergeGo minSize maxSize rest (merged ++ [cur]) ch
    else
      mergeGo minSize maxSize rest (merged ++ [cur]) ch

/-- The trailing-chunk finalisation of `mergeSmallChunks` (chunker.ts lines
210-222): an undersized final buffer tries to merge backward into the last
emitted chunk. -/
def mergeFinal (minSize maxSize : Nat) (merged : List Str) (cur : Str) : List Str :=
  if cur = [] then merged
  else if cur.length < minSize ∧ merged ≠ [] then
    let last := merged.getLast?.getD []
    if (last ++ ' ' :: cur).length ≤ maxSize then
      merged.dropLast ++ [last ++ ' ' :: cur]
    else
      merged ++ [cur]
  else
    merged ++ [cur]

/-- `mergeSmallChunks` (chunker.ts lines 182-225). -/
def mergeSmallChunks (chunks : List Str) (minSize maxSize : Nat) : List Str :=
  if chunks.length ≤ 1 then chunks
  else
    let st := mergeGo minSize maxSize chunks [] []
    mergeFinal minSize maxSize st.1 st.2

/-- Little-endian decimal digits of `n`, on fuel (fuel `n` suffices). -/
def natDigitsGo : Nat → Nat → Str
  | _, 0 => []
  | 0, _ + 1 => []
  | fuel + 1, n + 1 =>
    Nat.digitChar ((n + 1) % 10) :: natDigitsGo fuel ((n + 1) / 10)

/-- Decimal rendering of a natural number, as produced by the template
literal `${index}` in chunk ids. -/
def natRepr (n : Nat) : Str :=
  if n = 0 then ['0'] else (natDigitsGo n n).reverse

/-- Inverse of `Nat.digitChar` on decimal digits, to prove `natRepr`
injective. -/
def charVal (c : Char) : Nat :=
  if c = '0' then 0 else if c = '1' then 1 else if c = '2' then 2
  else if c = '3' then 3 else if c = '4' then 4 else if c = '5' then 5
  else if c = '6' then 6 else if c = '7' then 7 else if c = '8' then 8 else 9

/-- Value of a little-endian decimal digit string. -/
def parseDigits : Str → Nat
  | [] => 0
  | c :: r => charVal c + 10 * parseDigits r

/-- The chunk id `"{docId}#chunk-{index}"` (chunker.ts line 264). -/
def chunkIdOf (docId : Str) (i : Nat) : Str :=
  docId ++ "#chunk-".data ++ natRepr i

/-- `ChunkOptions` (chunker.ts lines 120-125); both fields optional. -/
structure ChunkOptions where
  maxChunkSize : Option Nat
  minChunkSize : Option Nat
deriving DecidableEq, Repr

/-- A produced `Chunk` (types/index.ts). -/
structure Chunk where
  chunkId : Str
  docId : Str
  title : Str
  text : Str
deriving DecidableEq, Repr

/-- `options?.maxChunkSize ?? DEFAULT_MAX_CHUNK_SIZE` (chunker.ts line 242). -/
def maxSizeOf (options : Option ChunkOptions) : Nat :=
  (options.bind ChunkOptions.maxChunkSize).getD 500

/-- `options?.minChunkSize ?? DEFAULT_MIN_CHUNK_SIZE` (chunker.ts line 243). -/
def minSizeOf (options : Option ChunkOptions) : Nat :=
  (options.bind ChunkOptions.minChunkSize).getD 100

/-- The paragraph list of `chunkDocument` (chunker.ts lines 250-253). -/
def paragraphsOf (content : Str) : List Str :=
  ((splitParas (trimStr content)).map trimStr).filter (fun p => 0 < p.length)

/-- The raw chunk sequence of `chunkDocument` before merging (chunker.ts
lines 255-259). -/
def rawChunksOf (content : Str) (maxSize : Nat) : List Str :=
  (paragraphsOf content).flatMap (fun p => splitLargeParagraph p maxSize)

/-- `chunkDocument` (chunker.ts lines 236-269). -/
def chunkDocument (docId title content : Str) (options : Option ChunkOptions) :
    List Chunk :=
  let maxSize := maxSizeOf options
  let minSize := minSizeOf options
  let trimmedContent := trimStr content
  if trimmedContent.length = 0 then []
  else
    let mergedChunks := mergeSmallChunks (rawChunksOf content maxSize) minSize maxSize
    mergedChunks.enum.map (fun p => ⟨chunkIdOf docId p.1, docId, title, p.2⟩)

/-- Nat-level mirror of the `mergeSmallChunks` loop: only chunk lengths drive
its decisions (joining with `' '` adds one to the length), with `0` playing
the role of the falsy empty string. -/
def natMergeGo (minSize maxSize : Nat) : List Nat → List Nat → Nat → List Nat × Nat
  | [], merged, cur => (merged, cur)
  | L :: rest, merged, cur =>
    if cur = 0 then natMergeGo minSize maxSize rest merged L
    else if cur < minSize then
      if cur + 1 + L ≤ maxSize then
        natMergeGo minSize maxSize rest merged (cur + 1 + L)
      else
        natMergeGo minSize maxSize rest (merged ++ [cur]) L
    else
      natMergeGo minSize maxSize rest (merged ++ [cur]) L

/-- Nat-level mirror of the trailing-chunk finalisation of `mergeSmallChunks`. -/
def natMergeFinal (minSize maxSize : Nat) (merged : List Nat) (cur : Nat) : List Nat :=
  if cur = 0 then merged
  else if cur < minSize ∧ merged ≠ [] then
    if merged.getLastD 0 + 1 + cur ≤ maxSize then
      merged.dropLast ++ [merged.getLastD 0 + 1 + cur]
    else
      merged ++ [cur]
  else
    merged ++ [cur]

/-- Nat-level mirror of `mergeSmallChunks`. -/
def natMerge (lengths : List Nat) (minSize maxSize : Nat) : List Nat :=
  if lengths.length ≤ 1 then lengths
  else
    let st := natMergeGo minSize maxSize lengths [] 0
    natMergeFinal minSize maxSize st.1 st.2

/-- Simulation invariant between a `natMergeGo` run with threshold `m1` and
one with threshold `m2 ≥ m1` over the same positive lengths: the `m2` run
has emitted strictly fewer chunks, or the same number with a current buffer
no longer than the `m1` run's (and a last-emitted/current total no larger),
or exactly one fewer with its buffer bounded by the `m1` run's last emitted
chunk joined to its buffer. -/
def natMergeInv : List Nat × Nat → List Nat × Nat → Prop
  | (M1, u1), (M2, u2) =>
    (M1.length = M2.length ∧ u2 ≤ u1 ∧
      M2.getLastD 0 + u2 ≤ M1.getLastD 0 + u1) ∨
    (M1.length = M2.length + 1 ∧ u2 ≤ M1.getLastD 0 + 1 + u1) ∨
    (M2.length + 2 ≤ M1.length)

/-- Pinecone match metadata after normalisation (types/index.ts). -/
structure MatchMetadata where
  docId : Str
  title : Str
  chunkText : Str
deriving DecidableEq, Repr

/-- A normalised Pinecone match (types/index.ts `PineconeMatch`).  Scores are
JavaScript numbers; the claims never compute with them, so they are modelled
as integers. -/
structure PineconeMatch where
  id : Str
  score : Int
  metadata : MatchMetadata
deriving DecidableEq, Repr

/-- A deduplicated citation source (llm.ts `extractSources` result). -/
structure Source where
  docId : Str
  title : Str
deriving DecidableEq, Repr

/-- The loop of `extractSources` (llm.ts lines 107-114): a JavaScript `Map`
keyed by `docId`, modelled by the list of seen keys plus the values in
insertion order. -/
def extractSourcesGo : List PineconeMatch → List Str → List Source → List Source
  | [], _, out => out
  | m :: rest, seen, out =>
    if m.metadata.docId ∈ seen then extractSourcesGo rest seen out
    else
      extractSourcesGo rest (m.metadata.docId :: seen)
        (out ++ [⟨m.metadata.docId, m.metadata.title⟩])

/-- `extractSources` (llm.ts lines 102-117). -/
def extractSources (ms : List PineconeMatch) : List Source :=
  extractSourcesGo ms [] []

/-- Reference function written from the specification's words: one source per
distinct `docId`, in first-occurrence order, the first match's title winning.
Used only to compare with the `extractSources` implementation above. -/
def sourcesSpec : List PineconeMatch → List Source
  | [] => []
  | m :: rest =>
    ⟨m.metadata.docId, m.metadata.title⟩ ::
      sourcesSpec (rest.filter (fun x => x.metadata.docId ≠ m.metadata.docId))
termination_by l => l.length
decreasing_by
  simp only [List.length_cons]
  exact Nat.lt_succ_of_le (List.length_filter_le _ rest)

/-- The zero-match fallback answer (ask.ts line 35 and llm.ts line 66). -/
def noDocsAnswer : Str :=
  "I don't have any documents to answer this question. Please ingest some documents first.".data

/-- The missing-generation-text fallback answer (llm.ts line 86). -/
def unableAnswer : Str :=
  "Unable to generate an answer. Please try again.".data

/-- `generateAnswer` (llm.ts lines 61-94), with the generation service
abstracted: `svc` is the outcome of the `chatCompletion` call, carrying
`response.choices?.[0]?.message?.content` (`none` models a missing field,
`some []` an empty string — both falsy in the JavaScript `!generatedText`
test).  A service error is wrapped and rethrown (`ExternalServiceError`),
modelled by propagating the error value `ε`. -/
def generateAnswer {ε : Type} (ms : List PineconeMatch)
    (svc : Except ε (Option Str)) : Except ε Str :=
  if ms.length = 0 then .ok noDocsAnswer
  else
    match svc with
    | .error e => .error e
    | .ok generatedText =>
      match generatedText with
      | none => .ok unableAnswer
      | some t => if t = [] then .ok unableAnswer else .ok (trimStr t)

/-- `AskResponse` (types/index.ts). -/
structure AskResponse where
  answer : Str
  sources : List Source
deriving DecidableEq, Repr

/-- The match-dependent tail of the ask handler (ask.ts lines 32-56), after
the question has been embedded and the index queried.  The boolean records
whether the generation service was invoked: handler lines 32-39 return the
fallback before `generateAnswer` is ever called. -/
def askCore {ε : Type} (ms : List PineconeMatch)
    (svc : Except ε (Option Str)) : Except ε AskResponse × Bool :=
  if ms.length = 0 then
    (.ok ⟨noDocsAnswer, []⟩, false)
  else
    ((generateAnswer ms svc).map (fun answer => ⟨answer, extractSources ms⟩),
     true)

/-- A raw metadata record as returned by the index, before normalisation
(pinecone.ts lines 374-378); `none` models a missing field and `some []` an
empty (falsy) string, the two cases `String(x || '')` collapses to `""`. -/
structure RawMetadata where
  docId : Option Str
  title : Option Str
  chunkText : Option Str
deriving DecidableEq, Repr

/-- A raw match as returned by the index (pinecone.ts line 369): `metadata`
may be absent and `score` may be absent (`typeof match.score === 'number'`
fails). -/
structure RawMatch where
  id : Str
  score : Option Int
  metadata : Option RawMetadata
deriving DecidableEq, Repr

/-- The normalisation loop of `queryVectors` (pinecone.ts lines 368-381):
raw matches lacking metadata or a numeric score are dropped, and missing or
falsy metadata fields are replaced by the empty string. -/
def queryVectorsGo : List RawMatch → List PineconeMatch → List PineconeMatch
  | [], out => out
  | r :: rest, out =>
    match r.metadata, r.score with
    | some md, some sc =>
      queryVectorsGo rest
        (out ++ [⟨r.id, sc, ⟨md.docId.getD [], md.title.getD [], md.chunkText.getD []⟩⟩])
    | _, _ => queryVectorsGo rest out

/-- `queryVectors`, restricted to its result normalisation (pinecone.ts
lines 356-388). -/
def queryVectors (results : List RawMatch) : List PineconeMatch :=
  queryVectorsGo results []

/-- A validated document of an ingest request (types/index.ts). -/
structure Document where
  id : Str
  title : Str
  content : Str
deriving DecidableEq, Repr

/-- The ingest response (types/index.ts `IngestResponse`). -/
structure IngestResponse where
  ingestedDocuments : Nat
  ingestedChunks : Nat
deriving DecidableEq, Repr

/-- A vector record upserted into the index (types/index.ts
`PineconeVector`); `values` holds the chunk's embedding.  `υ` abstracts the
numeric vector type.  `embeddings[i]` in the handler can be out of range in
JavaScript (yielding `undefined`), hence the `Option`. -/
structure PineconeVector (υ : Type) where
  id : Str
  values : Option υ
  metadata : MatchMetadata
deriving DecidableEq, Repr

/-- One external call made by the ingest pipeline, in order. -/
inductive IngestEvent (υ : Type) where
  | deleteCall (docId : Str)
  | embedCall (texts : List Str)
  | upsertCall (vectors : List (PineconeVector υ))
deriving DecidableEq, Repr

/-- The behaviour of the external services during one ingest request:
`ε` is the error type, `υ` the embedding-vector type. -/
structure ExternalWorld (ε υ : Type) where
  deleteRes : Str → Except ε Unit
  embedRes : List Str → Except ε (List υ)
  upsertRes : List (PineconeVector υ) → Except ε Unit

/-- `deleteByDocId` (pinecone.ts lines 396-408): the delete call is wrapped
in `try/catch` whose handler only logs (`console.warn`), so whatever the
index does the function returns normally. -/
def deleteByDocId {ε υ : Type} (w : ExternalWorld ε υ) (docId : Str) :
    Except ε Unit :=
  match w.deleteRes docId with
  | .ok _ => .ok ()
  | .error _ => .ok ()

/-- Per-document body of the ingest handler loop (ingest.ts lines 27-59):
delete stale chunks (best effort), chunk, skip on zero chunks, embed all
chunk texts, build vectors, upsert.  Returns the external calls made and
either the number of chunks ingested or the first propagated error. -/
def processDoc {ε υ : Type} (w : ExternalWorld ε υ) (d : Document) :
    List (IngestEvent υ) × Except ε Nat :=
  let chunks := chunkDocument d.id d.title d.content none
  if chunks.length = 0 then ([.deleteCall d.id], .ok 0)
  else
    let texts := chunks.map Chunk.text
    match w.embedRes texts with
    | .error e => ([.deleteCall d.id, .embedCall texts], .error e)
    | .ok embeddings =>
      let vectors := chunks.enum.map
        (fun p => PineconeVector.mk p.2.chunkId embeddings[p.1]?
          ⟨p.2.docId, p.2.title, p.2.text⟩)
      match w.upsertRes vectors with
      | .error e =>
        ([.deleteCall d.id, .embedCall texts, .upsertCall vectors], .error e)
      | .ok _ =>
        ([.deleteCall d.id, .embedCall texts, .upsertCall vectors], .ok chunks.length)

/-- The ingest handler loop (ingest.ts lines 25-59): documents processed
strictly in order, `totalChunks` accumulated, the first embed/upsert error
aborting the remaining documents. -/
def ingestGo {ε υ : Type} (w : ExternalWorld ε υ) :
    List Document → Nat → List (IngestEvent υ) → List (IngestEvent υ) × Except ε Nat
  | [], total, evs => (evs, .ok total)
  | d :: rest, total, evs =>
    let r := processDoc w d
    match r.2 with
    | .error e => (evs ++ r.1, .error e)
    | .ok n => ingestGo w rest (total + n) (evs ++ r.1)

/-- The ingest handler (ingest.ts lines 11-83), abstracted over the external
services: returns the calls made and either the aggregate response
(ingest.ts lines 61-64) or the propagated error. -/
def ingestCore {ε υ : Type} (w : ExternalWorld ε υ) (documents : List Document) :
    List (IngestEvent υ) × Except ε IngestResponse :=
  let r := ingestGo w documents 0 []
  (r.1, r.2.map (fun total => ⟨documents.length, total⟩))

/-- Decidable equality for `Except`, used to evaluate the models on
concrete worlds. -/
instance {ε α : Type} [DecidableEq ε] [DecidableEq α] : DecidableEq (Except ε α) :=
  fun a b =>
    match a, b with
    | .ok x, .ok y =>
      if h : x = y then .isTrue (by rw [h]) else .isFalse (by simp [h])
    | .error x, .error y =>
      if h : x = y then .isTrue (by rw [h]) else .isFalse (by simp [h])
    | .ok _, .error _ => .isFalse (by simp)
    | .error _, .ok _ => .isFalse (by simp)

/-- A concrete external world where every service call succeeds. -/
def okWorld : ExternalWorld Unit Unit where
  deleteRes := fun _ => .ok ()
  embedRes := fun texts => .ok (texts.map (fun _ => ()))
  upsertRes := fun _ => .ok ()

/-- A concrete external world whose embedding service fails exactly on the
chunk texts of document `"b"`. -/
def failWorld : ExternalWorld Unit Unit where
  deleteRes := fun _ => .ok ()
  embedRes := fun texts =>
    if "Bye.".data ∈ texts then .error () else .ok (texts.map (fun _ => ()))
  upsertRes := fun _ => .ok ()

/-! ### Source extraction (claim C5) -/

theorem extractSourcesGo_eq (ms : List PineconeMatch) : ∀ (seen : List Str)
    (out : List Source),
    extractSourcesGo ms seen out =
      out ++ sourcesSpec (ms.filter (fun m => m.metadata.docId ∉ seen)) := by
  induction ms with
  | nil => intro seen out; simp [extractSourcesGo, sourcesSpec]
  | cons m rest ih =>
    intro seen out
    by_cases h : m.metadata.docId ∈ seen
    · simp only [extractSourcesGo, if_pos h, List.filter_cons]
      have hd : (decide (m.metadata.docId ∉ seen)) = false := by simp [h]
      rw [hd]
      simp only [ih, Bool.false_eq_true, if_false]
    · simp only [extractSourcesGo, if_neg h, List.filter_cons]
      have hd : (decide (m.metadata.docId ∉ seen)) = true := by simp [h]
      rw [hd]
      simp only [ih, if_true]
      rw [List.append_assoc, List.singleton_append, sourcesSpec]
      congr 2
      rw [List.filter_filter]
      apply congrArg sourcesSpec
      apply List.filter_congr
      intro x _
      simp only [List.mem_cons, decide_not]
      by_cases h1 : x.metadata.docId = m.metadata.docId <;>
        by_cases h2 : x.metadata.docId ∈ seen <;> simp [h1, h2]

/-- C5: `extractSources` returns exactly one source per distinct metadata
`docId`, keeping the first match's `{docId, title}` for each id, in
first-occurrence order (this is the `sourcesSpec` reference function); in
particular on a nonempty list of matches all sharing one `docId` it returns
exactly the first match's `{docId, title}`. -/
theorem extractSources_correct (ms : List PineconeMatch) :
    extractSources ms = sourcesSpec ms ∧
    (∀ (m : PineconeMatch) (rest : List PineconeMatch), ms = m :: rest →
      (∀ x ∈ ms, x.metadata.docId = m.metadata.docId) →
      extractSources ms = [⟨m.metadata.docId, m.metadata.title⟩]) := by
  have base : extractSources ms = sourcesSpec ms := by
    rw [extractSources, extractSourcesGo_eq]
    simp
  refine ⟨base, ?_⟩
  rintro m rest rfl hall
  rw [base, sourcesSpec]
  have : rest.filter (fun x => x.metadata.docId ≠ m.metadata.docId) = [] := by
    rw [List.filter_eq_nil_iff]
    intro x hx
    simp [hall x (List.mem_cons_of_mem _ hx)]
  rw [this, sourcesSpec]

/-- Closed witness for C5 at a concrete input: two matches sharing a docId
but with different titles collapse to the first match's source. -/
theorem extractSources_correct_witness :
    extractSources
        [⟨"m1".data, 9, ⟨"doc-a".data, "Title One".data, "x".data⟩⟩,
         ⟨"m2".data, 7, ⟨"doc-a".data, "Title Two".data, "y".data⟩⟩] =
      [⟨"doc-a".data, "Title One".data⟩] :=
  (extractSources_correct
        [⟨"m1".data, 9, ⟨"doc-a".data, "Title One".data, "x".data⟩⟩,
         ⟨"m2".data, 7, ⟨"doc-a".data, "Title Two".data, "y".data⟩⟩]).2
    ⟨"m1".data, 9, ⟨"doc-a".data, "Title One".data, "x".data⟩⟩
    [⟨"m2".data, 7, ⟨"doc-a".data, "Title Two".data, "y".data⟩⟩]
    rfl (by decide)

/-! ### Ask pipeline with zero matches (claim C6) -/

/-- C6: with zero index matches the ask pipeline returns exactly the literal
fallback answer and an empty source list, and the generation service is not
called (the `false` component; the result is the same whatever the
generation service `svc` would have produced). -/
theorem askCore_zero_matches (ε : Type) (svc : Except ε (Option Str)) :
    askCore [] svc =
      (Except.ok
        ⟨("I don't have any documents to answer this question. " ++
            "Please ingest some documents first.").data, []⟩,
       false) := by
  simp [askCore, noDocsAnswer]

/-! ### Generation fallback (claim C9) -/

/-- C9: on a nonempty match list, a generation-service response that carries
no text (missing `content` field or empty string, both falsy) makes
`generateAnswer` return the fixed fallback answer rather than an error, and
a response with text makes it return the trimmed text. -/
theorem generateAnswer_fallback (ε : Type) (ms : List PineconeMatch)
    (hne : ms ≠ []) :
    generateAnswer (ε := ε) ms (.ok none) = .ok unableAnswer ∧
    generateAnswer (ε := ε) ms (.ok (some [])) = .ok unableAnswer ∧
    (∀ t : Str, t ≠ [] →
      generateAnswer (ε := ε) ms (.ok (some t)) = .ok (trimStr t)) := by
  have hlen : ms.length ≠ 0 := by simpa using hne
  refine ⟨?_, ?_, ?_⟩
  · simp [generateAnswer, hlen]
  · simp [generateAnswer, hlen]
  · intro t ht
    simp [generateAnswer, hlen, ht]

/-- Closed witness for C9 at a concrete input. -/
theorem generateAnswer_fallback_witness :
    generateAnswer (ε := Unit)
        [⟨"m1".data, 1, ⟨"d".data, "t".data, "c".data⟩⟩] (.ok (some "  hi  ".data)) =
      .ok "hi".data :=
  (generateAnswer_fallback Unit [⟨"m1".data, 1, ⟨"d".data, "t".data, "c".data⟩⟩]
      (by decide)).2.2 "  hi  ".data (by decide)

/-! ### Query-result normalisation (claim C10) -/

theorem queryVectorsGo_eq (raws : List RawMatch) : ∀ (out : List PineconeMatch),
    queryVectorsGo raws out =
      out ++ raws.filterMap (fun r =>
        match r.metadata, r.score with
        | some md, some sc =>
          some ⟨r.id, sc, ⟨md.docId.getD [], md.title.getD [], md.chunkText.getD []⟩⟩
        | _, _ => none) := by
  induction raws with
  | nil => intro out; simp [queryVectorsGo]
  | cons r rest ih =>
    intro out
    rcases hm : r.metadata with _ | md <;> rcases hs : r.score with _ | sc <;>
      simp [queryVectorsGo, hm, hs, ih, List.filterMap_cons]

/-- C10: every match returned by `queryVectors` comes from a raw match that
had a metadata record and a numeric score, with missing or falsy metadata
fields replaced by the empty string; raw matches without metadata or score
are silently dropped (`filterMap`), so the result can be shorter than the
raw list the index returned (second component: 2 raw matches, 1 result). -/
theorem queryVectors_normalises :
    (∀ raws : List RawMatch,
      queryVectors raws =
        raws.filterMap (fun r =>
          match r.metadata, r.score with
          | some md, some sc =>
            some ⟨r.id, sc, ⟨md.docId.getD [], md.title.getD [], md.chunkText.getD []⟩⟩
          | _, _ => none)) ∧
    (∃ raws : List RawMatch, raws.length = 2 ∧ (queryVectors raws).length = 1) := by
  constructor
  · intro raws
    rw [queryVectors, queryVectorsGo_eq]
    simp
  · exact ⟨[⟨"a".data, some 1, some ⟨none, some "t".data, none⟩⟩,
            ⟨"b".data, none, some ⟨some "d".data, some "t".data, some "c".data⟩⟩],
      by decide, by decide⟩

/-! ### Ingest aggregation and skipping (claim C7) -/

theorem processDoc_ok {ε υ : Type} (w : ExternalWorld ε υ)
    (hembed : ∀ texts, ∃ vs, w.embedRes texts = .ok vs)
    (hupsert : ∀ vecs, w.upsertRes vecs = .ok ()) (d : Document) :
    (processDoc w d).2 = .ok (chunkDocument d.id d.title d.content none).length := by
  unfold processDoc
  by_cases h : (chunkDocument d.id d.title d.content none).length = 0
  · simp [h]
  · obtain ⟨vs, hvs⟩ := hembed ((chunkDocument d.id d.title d.content none).map Chunk.text)
    simp [h, hvs, hupsert]

theorem ingestGo_ok {ε υ : Type} (w : ExternalWorld ε υ) (docs : List Document) :
    ∀ (total : Nat) (evs : List (IngestEvent υ)),
    (∀ d ∈ docs,
      (processDoc w d).2 = .ok (chunkDocument d.id d.title d.content none).length) →
    ingestGo w docs total evs =
      (evs ++ docs.flatMap (fun d => (processDoc w d).1),
       .ok (total +
         (docs.map (fun d => (chunkDocument d.id d.title d.content none).length)).sum)) := by
  induction docs with
  | nil => intro total evs _; simp [ingestGo]
  | cons d rest ih =>
    intro total evs hall
    have hd := hall d (List.mem_cons_self d rest)
    simp only [ingestGo, hd]
    rw [ih _ _ (fun x hx => hall x (List.mem_cons_of_mem _ hx))]
    simp [List.append_assoc, Nat.add_assoc]

/-- C7: when the external services succeed, the ingest pipeline processes
every document, a zero-chunk document is skipped with only its (best-effort)
delete call and no embed or upsert call, and the response counts all request
documents and sums the chunks produced per document (zero for skipped
ones). -/
theorem ingestCore_counts {ε υ : Type} (w : ExternalWorld ε υ)
    (documents : List Document)
    (hembed : ∀ texts, ∃ vs, w.embedRes texts = .ok vs)
    (hupsert : ∀ vecs, w.upsertRes vecs = .ok ()) :
    ingestCore w documents =
      (documents.flatMap (fun d => (processDoc w d).1),
       .ok ⟨documents.length,
         (documents.map
           (fun d => (chunkDocument d.id d.title d.content none).length)).sum⟩) ∧
    (∀ d ∈ documents, (chunkDocument d.id d.title d.content none).length = 0 →
      (processDoc w d).1 = [.deleteCall d.id]) := by
  constructor
  · unfold ingestCore
    rw [ingestGo_ok w documents 0 []
      (fun d _ => processDoc_ok w hembed hupsert d)]
    simp [Except.map]
  · intro d _ h
    simp [processDoc, h]

/-- Closed witness for C7: a two-document batch whose second document has
whitespace-only content is skipped, yet both documents are counted. -/
theorem ingestCore_counts_witness :
    (ingestCore okWorld
        [⟨"a".data, "t".data, "Hello.".data⟩, ⟨"b".data, "t".data, "  ".data⟩]).2 =
      .ok ⟨2, 1⟩ := by
  rw [(ingestCore_counts okWorld
      [⟨"a".data, "t".data, "Hello.".data⟩, ⟨"b".data, "t".data, "  ".data⟩]
      (fun texts => ⟨texts.map (fun _ => ()), rfl⟩) (fun _ => rfl)).1]
  rfl

/-! ### Ingest failure propagation (claim C8) -/

/-- C8: the stale-chunk delete (`deleteByDocId`) never fails whatever the
index does — its error is swallowed; but the first embed or upsert failure
of a document aborts the whole request with that error, keeping the calls
(including upserts) already made for earlier documents — nothing is rolled
back — and processing no later document. -/
theorem ingest_error_propagation (ε υ : Type) (w : ExternalWorld ε υ) :
    (∀ docId, deleteByDocId w docId = .ok ()) ∧
    (∀ (pre post : List Document) (d : Document) (e : ε),
      (∀ p ∈ pre,
        (processDoc w p).2 = .ok (chunkDocument p.id p.title p.content none).length) →
      (processDoc w d).2 = .error e →
      ingestCore w (pre ++ d :: post) =
        (pre.flatMap (fun p => (processDoc w p).1) ++ (processDoc w d).1,
         .error e)) := by
  constructor
  · intro docId
    unfold deleteByDocId
    rcases w.deleteRes docId with _ | _ <;> rfl
  · intro pre post d e hpre hd
    unfold ingestCore
    have main : ∀ (pre : List Document) (total : Nat) (evs : List (IngestEvent υ)),
        (∀ p ∈ pre,
          (processDoc w p).2 = .ok (chunkDocument p.id p.title p.content none).length) →
        ingestGo w (pre ++ d :: post) total evs =
          (evs ++ pre.flatMap (fun p => (processDoc w p).1) ++ (processDoc w d).1,
           .error e) := by
      intro pre
      induction pre with
      | nil =>
        intro total evs _
        simp [List.nil_append, List.flatMap_nil, ingestGo, hd]
      | cons p rest ih =>
        intro total evs hall
        have hp := hall p (List.mem_cons_self p rest)
        simp only [List.cons_append, ingestGo, hp]
        simp only [List.append_eq]
        rw [ih _ _ (fun x hx => hall x (List.mem_cons_of_mem _ hx))]
        simp [List.append_assoc]
    rw [main pre 0 [] hpre]
    simp [Except.map]

/-- Closed witness for C8: document `"a"` succeeds (its upsert call stays in
the trace), document `"b"`'s embedding fails and the error aborts the batch
before document `"c"`. -/
theorem ingest_error_propagation_witness :
    ingestCore failWorld
        [⟨"a".data, "t".data, "Hello.".data⟩, ⟨"b".data, "t".data, "Bye.".data⟩,
         ⟨"c".data, "t".data, "More.".data⟩] =
      ([⟨"a".data, "t".data, "Hello.".data⟩].flatMap
          (fun p => (processDoc failWorld p).1) ++
        (processDoc failWorld ⟨"b".data, "t".data, "Bye.".data⟩).1,
       .error ()) :=
  (ingest_error_propagation Unit Unit failWorld).2
    [⟨"a".data, "t".data, "Hello.".data⟩] [⟨"c".data, "t".data, "More.".data⟩]
    ⟨"b".data, "t".data, "Bye.".data⟩ ()
    (by decide) (by decide)

/-! ### Chunk-id arithmetic (for claim C2) -/

theorem charVal_digitChar : ∀ d < 10, charVal (Nat.digitChar d) = d := by decide

theorem parseDigits_natDigitsGo :
    ∀ (fuel n : Nat), n ≤ fuel → parseDigits (natDigitsGo fuel n) = n := by
  intro fuel
  induction fuel with
  | zero =>
    intro n hn
    interval_cases n
    rfl
  | succ fuel ih =>
    intro n hn
    match n with
    | 0 => rfl
    | m + 1 =>
      have hdiv : (m + 1) / 10 ≤ fuel := by
        have := Nat.div_lt_self (Nat.succ_pos m) (by norm_num : 1 < 10)
        omega
      simp only [natDigitsGo, parseDigits, ih _ hdiv,
        charVal_digitChar _ (Nat.mod_lt _ (by norm_num))]
      omega

theorem natRepr_injective : Function.Injective natRepr := by
  intro a b h
  unfold natRepr at h
  by_cases ha : a = 0 <;> by_cases hb : b = 0
  · omega
  · rw [if_pos ha, if_neg hb] at h
    have h2 : natDigitsGo b b = ['0'] := by
      have := congrArg List.reverse h
      simpa using this.symm
    have h3 := parseDigits_natDigitsGo b b le_rfl
    rw [h2] at h3
    simp [parseDigits, charVal] at h3
    omega
  · rw [if_neg ha, if_pos hb] at h
    have h2 : natDigitsGo a a = ['0'] := by
      have := congrArg List.reverse h
      simpa using this
    have h3 := parseDigits_natDigitsGo a a le_rfl
    rw [h2] at h3
    simp [parseDigits, charVal] at h3
    omega
  · rw [if_neg ha, if_neg hb] at h
    have h2 : natDigitsGo a a = natDigitsGo b b := by
      have := congrArg List.reverse h
      simpa using this
    have h3 := parseDigits_natDigitsGo a a le_rfl
    have h4 := parseDigits_natDigitsGo b b le_rfl
    rw [h2, h4] at h3
    exact h3.symm

theorem chunkIdOf_injective (docId : Str) : Function.Injective (chunkIdOf docId) := by
  intro i j h
  unfold chunkIdOf at h
  have h1 := List.append_cancel_left h
  exact natRepr_injective h1

/-- C2: the chunk at 0-based position `i` of `chunkDocument`'s result has
chunk id `"{docId}#chunk-{i}"`; the list of chunk ids is exactly
`chunkIdOf docId` mapped over `0, 1, ..., n-1` (no gaps, no repeats) and in
particular has no duplicates.  (`0 < maxChunkSize` because the JavaScript
chunker never returns on nonempty content otherwise.) -/
theorem chunkDocument_chunkIds (docId title content : Str)
    (options : Option ChunkOptions) (hmax : 0 < maxSizeOf options) :
    (∀ (i : Nat) (h : i < (chunkDocument docId title content options).length),
      ((chunkDocument docId title content options).get ⟨i, h⟩).chunkId =
        chunkIdOf docId i) ∧
    ((chunkDocument docId title content options).map Chunk.chunkId =
      (List.range (chunkDocument docId title content options).length).map
        (chunkIdOf docId)) ∧
    ((chunkDocument docId title content options).map Chunk.chunkId).Nodup := by
  have key : ∀ (l : List Str),
      (l.enum.map (fun p : Nat × Str => Chunk.mk (chunkIdOf docId p.1) docId title p.2)).map
          Chunk.chunkId =
        (List.range l.length).map (chunkIdOf docId) := by
    intro l
    rw [List.map_map, ← List.enum_map_fst l, List.map_map]
    rfl
  have hform : (chunkDocument docId title content options).map Chunk.chunkId =
      (List.range (chunkDocument docId title content options).length).map
        (chunkIdOf docId) := by
    unfold chunkDocument
    by_cases h : (trimStr content).length = 0
    · simp [h]
    · simp only [h, if_false, List.length_map, List.enum_length]
      exact key _
  refine ⟨?_, hform, ?_⟩
  · intro i h
    have hi : i < ((chunkDocument docId title content options).map Chunk.chunkId).length := by
      simpa using h
    have h2 := List.getElem_of_eq hform hi
    simp only [List.getElem_map, List.getElem_range] at h2
    rw [List.get_eq_getElem]
    exact h2
  · rw [hform]
    exact (List.nodup_range _).map (chunkIdOf_injective docId)

/-- Closed witness for C2 at a concrete input. -/
theorem chunkDocument_chunkIds_witness :
    ((chunkDocument "doc-1".data "T".data "Para 1.\n\nPara 2.".data none).map
      Chunk.chunkId).Nodup :=
  (chunkDocument_chunkIds "doc-1".data "T".data "Para 1.\n\nPara 2.".data none
    (by decide)).2.2

/-! ### Chunk-size bound (claim C3) -/

theorem trimStr_length_le (l : Str) : (trimStr l).length ≤ l.length := by
  unfold trimStr
  simp only [List.length_reverse]
  refine le_trans (List.Sublist.length_le (List.dropWhile_sublist _)) ?_
  simp only [List.length_reverse]
  exact List.Sublist.length_le (List.dropWhile_sublist _)

theorem chunksOfGo_length_le (maxSize : Nat) :
    ∀ (fuel : Nat) (l : Str), ∀ piece ∈ chunksOfGo maxSize fuel l,
      piece.length ≤ maxSize := by
  intro fuel
  induction fuel with
  | zero =>
    intro l piece hp
    cases l <;> simp [chunksOfGo] at hp
  | succ fuel ih =>
    intro l piece hp
    cases l with
    | nil => simp [chunksOfGo] at hp
    | cons c rest =>
      simp only [chunksOfGo, List.mem_cons] at hp
      rcases hp with rfl | hp
      · simp [List.length_take]
      · exact ih _ _ hp

theorem slpGo_bounded (maxSize : Nat) :
    ∀ (sentences chunks : List Str) (cur : Str),
    (∀ ch ∈ chunks, ch.length ≤ maxSize) → cur.length ≤ maxSize →
    ∀ ch ∈ slpGo maxSize sentences chunks cur, ch.length ≤ maxSize := by
  intro sentences
  induction sentences with
  | nil =>
    intro chunks cur hc hcur ch hch
    simp only [slpGo] at hch
    by_cases h : cur = []
    · rw [if_pos h] at hch
      exact hc ch hch
    · rw [if_neg h] at hch
      rcases List.mem_append.mp hch with hx | hx
      · exact hc ch hx
      · simp only [List.mem_singleton] at hx
        subst hx
        exact le_trans (trimStr_length_le cur) hcur
  | cons s rest ih =>
    intro chunks cur hc hcur ch hch
    simp only [slpGo] at hch
    by_cases h1 : maxSize < s.length
    · rw [if_pos h1] at hch
      refine ih _ _ ?_ (by simp) ch hch
      intro x hx
      rcases List.mem_append.mp hx with hx | hx
      · by_cases h : cur = []
        · rw [if_pos h] at hx; exact hc x hx
        · rw [if_neg h] at hx
          rcases List.mem_append.mp hx with hx | hx
          · exact hc x hx
          · simp only [List.mem_singleton] at hx
            subst hx
            exact le_trans (trimStr_length_le cur) hcur
      · rcases List.mem_map.mp hx with ⟨piece, hpiece, rfl⟩
        exact le_trans (trimStr_length_le piece) (chunksOfGo_length_le maxSize _ s piece hpiece)
    · rw [if_neg h1] at hch
      by_cases h2 : maxSize < cur.length + s.length + 1
      · rw [if_pos h2] at hch
        refine ih _ _ ?_ (by omega) ch hch
        intro x hx
        by_cases h : cur = []
        · rw [if_pos h] at hx; exact hc x hx
        · rw [if_neg h] at hx
          rcases List.mem_append.mp hx with hx | hx
          · exact hc x hx
          · simp only [List.mem_singleton] at hx
            subst hx
            exact le_trans (trimStr_length_le cur) hcur
      · rw [if_neg h2] at hch
        refine ih _ _ hc ?_ ch hch
        by_cases h : cur = []
        · rw [if_pos h]; omega
        · rw [if_neg h]
          simp only [List.length_append, List.length_cons]
          omega

theorem splitLargeParagraph_bounded (paragraph : Str) (maxSize : Nat) :
    ∀ ch ∈ splitLargeParagraph paragraph maxSize, ch.length ≤ maxSize := by
  unfold splitLargeParagraph
  split
  · intro ch hch
    simp only [List.mem_singleton] at hch
    subst hch
    assumption
  · exact slpGo_bounded maxSize _ [] [] (by simp) (by simp)

theorem rawChunksOf_bounded (content : Str) (maxSize : Nat) :
    ∀ x ∈ rawChunksOf content maxSize, x.length ≤ maxSize := by
  intro x hx
  rcases List.mem_flatMap.mp hx with ⟨p, _, hx⟩
  exact splitLargeParagraph_bounded p maxSize x hx

theorem mergeGo_bounded (minSize maxSize : Nat) :
    ∀ (rest merged : List Str) (cur : Str),
    (∀ x ∈ merged, x.length ≤ maxSize) → cur.length ≤ maxSize →
    (∀ x ∈ rest, x.length ≤ maxSize) →
    (∀ x ∈ (mergeGo minSize maxSize rest merged cur).1, x.length ≤ maxSize) ∧
    (mergeGo minSize maxSize rest merged cur).2.length ≤ maxSize := by
  intro rest
  induction rest with
  | nil =>
    intro merged cur hm hcur _
    exact ⟨hm, hcur⟩
  | cons ch rest ih =>
    intro merged cur hm hcur hrest
    have hch : ch.length ≤ maxSize := hrest ch (List.mem_cons_self _ _)
    have hrest' : ∀ x ∈ rest, x.length ≤ maxSize :=
      fun x hx => hrest x (List.mem_cons_of_mem _ hx)
    simp only [mergeGo]
    by_cases h0 : cur = []
    · rw [if_pos h0]
      exact ih merged ch hm hch hrest'
    · rw [if_neg h0]
      by_cases h1 : cur.length < minSize
      · rw [if_pos h1]
        by_cases h2 : (cur ++ ' ' :: ch).length ≤ maxSize
        · rw [if_pos h2]
          exact ih merged _ hm h2 hrest'
        · rw [if_neg h2]
          refine ih _ ch ?_ hch hrest'
          intro x hx
          rcases List.mem_append.mp hx with hx | hx
          · exact hm x hx
          · simp only [List.mem_singleton] at hx; subst hx; exact hcur
      · rw [if_neg h1]
        refine ih _ ch ?_ hch hrest'
        intro x hx
        rcases List.mem_append.mp hx with hx | hx
        · exact hm x hx
        · simp only [List.mem_singleton] at hx; subst hx; exact hcur

theorem mergeFinal_bounded (minSize maxSize : Nat) (merged : List Str) (cur : Str)
    (hm : ∀ x ∈ merged, x.length ≤ maxSize) (hcur : cur.length ≤ maxSize) :
    ∀ x ∈ mergeFinal minSize maxSize merged cur, x.length ≤ maxSize := by
  intro x hx
  unfold mergeFinal at hx
  by_cases h0 : cur = []
  · rw [if_pos h0] at hx
    exact hm x hx
  · rw [if_neg h0] at hx
    by_cases h1 : cur.length < minSize ∧ merged ≠ []
    · rw [if_pos h1] at hx
      by_cases h2 : ((merged.getLast?.getD []) ++ ' ' :: cur).length ≤ maxSize
      · simp only [h2, if_true] at hx
        rcases List.mem_append.mp hx with hx | hx
        · exact hm x ((List.dropLast_sublist merged).subset hx)
        · simp only [List.mem_singleton] at hx; subst hx; exact h2
      · simp only [h2, if_false] at hx
        rcases List.mem_append.mp hx with hx | hx
        · exact hm x hx
        · simp only [List.mem_singleton] at hx; subst hx; exact hcur
    · rw [if_neg h1] at hx
      rcases List.mem_append.mp hx with hx | hx
      · exact hm x hx
      · simp only [List.mem_singleton] at hx; subst hx; exact hcur

theorem mergeSmallChunks_bounded (chunks : List Str) (minSize maxSize : Nat)
    (hc : ∀ x ∈ chunks, x.length ≤ maxSize) :
    ∀ x ∈ mergeSmallChunks chunks minSize maxSize, x.length ≤ maxSize := by
  unfold mergeSmallChunks
  split
  · exact hc
  · have h := mergeGo_bounded minSize maxSize chunks [] [] (by simp) (by simp) hc
    exact mergeFinal_bounded minSize maxSize _ _ h.1 h.2

/-- C3: every chunk produced by `chunkDocument` has text of length at most
`maxChunkSize` — including the hard-split slices of an oversized sentence,
which are cut at exactly `maxChunkSize` characters and then trimmed, so the
"except possibly hard-split overflow" allowance of the claim is never even
needed.  (`0 < maxChunkSize` because the JavaScript chunker never returns on
nonempty content otherwise.) -/
theorem chunkDocument_chunk_size (docId title content : Str)
    (options : Option ChunkOptions) (hmax : 0 < maxSizeOf options) :
    ∀ ch ∈ chunkDocument docId title content options,
      ch.text.length ≤ maxSizeOf options := by
  intro ch hch
  unfold chunkDocument at hch
  by_cases h : (trimStr content).length = 0
  · simp [h] at hch
  · simp only [h, if_false] at hch
    rcases List.mem_map.mp hch with ⟨p, hp, rfl⟩
    have hmem : p.2 ∈ mergeSmallChunks (rawChunksOf content (maxSizeOf options))
        (minSizeOf options) (maxSizeOf options) := by
      have := List.mem_map_of_mem Prod.snd hp
      rwa [List.enum_map_snd] at this
    exact mergeSmallChunks_bounded _ _ _ (rawChunksOf_bounded content _) p.2 hmem

/-- Closed witness for C3 at a concrete input. -/
theorem chunkDocument_chunk_size_witness :
    (Chunk.mk "doc-1#chunk-0".data "doc-1".data "T".data
        "Para 1. Para 2.".data).text.length ≤ maxSizeOf none :=
  chunkDocument_chunk_size "doc-1".data "T".data "Para 1.\n\nPara 2.".data none
    (by decide) _ (by decide)

/-! ### Emptiness characterisation (claim C1) -/

theorem trimStr_eq_nil_iff (l : Str) : trimStr l = [] ↔ ∀ c ∈ l, isWS c := by
  unfold trimStr
  constructor
  · intro h c hc
    rw [List.reverse_eq_nil_iff, List.dropWhile_eq_nil_iff] at h
    have hsplit := List.takeWhile_append_dropWhile (p := isWS) (l := l)
    rw [← hsplit] at hc
    rcases List.mem_append.mp hc with hc | hc
    · exact List.mem_takeWhile_imp hc
    · exact h c (List.mem_reverse.mpr hc)
  · intro h
    have h1 : l.dropWhile isWS = [] := List.dropWhile_eq_nil_iff.mpr h
    simp [h1]

theorem mem_of_mem_trimStr {c : Char} {l : Str} (h : c ∈ trimStr l) : c ∈ l := by
  unfold trimStr at h
  rw [List.mem_reverse] at h
  have h1 := (List.dropWhile_sublist _).subset h
  rw [List.mem_reverse] at h1
  exact (List.dropWhile_sublist _).subset h1

theorem dropWhile_head_not (p : Char → Bool) (l : Str) (h : l.dropWhile p ≠ []) :
    ∃ a t, l.dropWhile p = a :: t ∧ ¬ p a := by
  induction l with
  | nil => simp [List.dropWhile] at h
  | cons c rest ih =>
    by_cases hc : p c
    · rw [List.dropWhile_cons_of_pos hc] at h ⊢
      exact ih h
    · rw [List.dropWhile_cons_of_neg hc]
      exact ⟨c, rest, rfl, hc⟩

theorem trimStr_has_non_ws (l : Str) (h : trimStr l ≠ []) :
    ∃ c ∈ trimStr l, ¬ isWS c := by
  have h' : (l.dropWhile isWS).reverse.dropWhile isWS ≠ [] := by
    intro hx
    apply h
    unfold trimStr
    rw [hx, List.reverse_nil]
  obtain ⟨a, t, heq, ha⟩ := dropWhile_head_not isWS _ h'
  refine ⟨a, ?_, ha⟩
  unfold trimStr
  rw [heq, List.mem_reverse]
  exact List.mem_cons_self a t

theorem sentGo_cover : ∀ (l : Str) (segs : List Str) (cur : Str) (inSep : Bool),
    (inSep = true → cur = []) →
    ((∃ c ∈ l, ¬ isWS c) ∨ (∃ c ∈ cur, ¬ isWS c) ∨
      (∃ s ∈ segs, ∃ c ∈ s, ¬ isWS c)) →
    ∃ s ∈ sentGo l segs cur inSep, ∃ c ∈ s, ¬ isWS c := by
  intro l
  induction l with
  | nil =>
    intro segs cur inSep _ hx
    simp only [sentGo]
    rcases hx with ⟨c, hc, _⟩ | ⟨c, hc, hcw⟩ | ⟨s, hs, hex⟩
    · simp at hc
    · exact ⟨cur.reverse, List.mem_append_right _ (List.mem_singleton_self _),
        c, List.mem_reverse.mpr hc, hcw⟩
    · exact ⟨s, List.mem_append_left _ hs, hex⟩
  | cons c rest ih =>
    intro segs cur inSep hsep hx
    cases inSep with
    | true =>
      have hcur := hsep rfl
      subst hcur
      simp only [sentGo]
      by_cases hws : isWS c
      · rw [if_pos hws]
        refine ih segs [] true (fun _ => rfl) ?_
        rcases hx with ⟨d, hd, hdw⟩ | ⟨d, hd, _⟩ | hseg
        · rcases List.mem_cons.mp hd with rfl | hd
          · exact absurd hws hdw
          · exact Or.inl ⟨d, hd, hdw⟩
        · simp at hd
        · exact Or.inr (Or.inr hseg)
      · rw [if_neg hws]
        refine ih segs [c] false (by simp) ?_
        rcases hx with ⟨d, hd, hdw⟩ | ⟨d, hd, _⟩ | hseg
        · rcases List.mem_cons.mp hd with rfl | hd
          · exact Or.inr (Or.inl ⟨d, List.mem_singleton_self _, hdw⟩)
          · exact Or.inl ⟨d, hd, hdw⟩
        · simp at hd
        · exact Or.inr (Or.inr hseg)
    | false =>
      cases cur with
      | nil =>
        simp only [sentGo, Bool.and_false, Bool.false_eq_true, if_false]
        refine ih segs [c] false (by simp) ?_
        rcases hx with ⟨d, hd, hdw⟩ | ⟨d, hd, hdw⟩ | hseg
        · rcases List.mem_cons.mp hd with rfl | hd
          · exact Or.inr (Or.inl ⟨d, List.mem_singleton_self _, hdw⟩)
          · exact Or.inl ⟨d, hd, hdw⟩
        · simp at hd
        · exact Or.inr (Or.inr hseg)
      | cons p ptail =>
        simp only [sentGo]
        by_cases hcond : (isWS c && isTermChar p) = true
        · rw [if_pos hcond]
          have hws : isWS c := by
            have := hcond
            simp only [Bool.and_eq_true] at this
            exact this.1
          refine ih _ [] true (fun _ => rfl) ?_
          rcases hx with ⟨d, hd, hdw⟩ | ⟨d, hd, hdw⟩ | ⟨s, hs, hex⟩
          · rcases List.mem_cons.mp hd with rfl | hd
            · exact absurd hws hdw
            · exact Or.inl ⟨d, hd, hdw⟩
          · exact Or.inr (Or.inr ⟨(p :: ptail).reverse,
              List.mem_append_right _ (List.mem_singleton_self _),
              d, List.mem_reverse.mpr hd, hdw⟩)
          · exact Or.inr (Or.inr ⟨s, List.mem_append_left _ hs, hex⟩)
        · rw [if_neg hcond]
          refine ih segs (c :: p :: ptail) false (by simp) ?_
          rcases hx with ⟨d, hd, hdw⟩ | ⟨d, hd, hdw⟩ | hseg
          · rcases List.mem_cons.mp hd with rfl | hd
            · exact Or.inr (Or.inl ⟨d, List.mem_cons_self _ _, hdw⟩)
            · exact Or.inl ⟨d, hd, hdw⟩
          · exact Or.inr (Or.inl ⟨d, List.mem_cons_of_mem _ hd, hdw⟩)
          · exact Or.inr (Or.inr hseg)

theorem paraGo_cover : ∀ (l : Str) (segs : List Str) (cur : Str)
    (pend : Option (Str × Str × Bool)),
    (∀ b t s, pend = some (b, t, s) → (∀ c ∈ b, isWS c) ∧ (∀ c ∈ t, isWS c)) →
    ((∃ c ∈ l, ¬ isWS c) ∨ (∃ c ∈ cur, ¬ isWS c) ∨
      (∃ s ∈ segs, ∃ c ∈ s, ¬ isWS c)) →
    ∃ s ∈ paraGo l segs cur pend, ∃ c ∈ s, ¬ isWS c := by
  intro l
  induction l with
  | nil =>
    intro segs cur pend hpend hx
    match pend with
    | none =>
      simp only [paraGo]
      rcases hx with ⟨c, hc, _⟩ | ⟨c, hc, hcw⟩ | ⟨s, hs, hex⟩
      · simp at hc
      · exact ⟨cur.reverse, List.mem_append_right _ (List.mem_singleton_self _),
          c, List.mem_reverse.mpr hc, hcw⟩
      · exact ⟨s, List.mem_append_left _ hs, hex⟩
    | some (buf, tail, saw) =>
      simp only [paraGo]
      rcases hx with ⟨c, hc, _⟩ | ⟨c, hc, hcw⟩ | ⟨s, hs, hex⟩
      · simp at hc
      · cases saw with
        | true =>
          rw [if_pos rfl]
          exact ⟨cur.reverse, List.mem_append_right _ (List.mem_cons_self _ _),
            c, List.mem_reverse.mpr hc, hcw⟩
        | false =>
          rw [if_neg (by simp)]
          exact ⟨(buf ++ cur).reverse,
            List.mem_append_right _ (List.mem_singleton_self _),
            c, List.mem_reverse.mpr (List.mem_append_right _ hc), hcw⟩
      · cases saw with
        | true =>
          rw [if_pos rfl]
          exact ⟨s, List.mem_append_left _ hs, hex⟩
        | false =>
          rw [if_neg (by simp)]
          exact ⟨s, List.mem_append_left _ hs, hex⟩
  | cons c rest ih =>
    intro segs cur pend hpend hx
    have hx' : ∀ (du : Str) (dsegs : List Str),
        ((∃ d ∈ rest, ¬ isWS d) ∨ (∃ d ∈ du, ¬ isWS d) ∨
          (∃ s ∈ dsegs, ∃ d ∈ s, ¬ isWS d)) → True := fun _ _ _ => trivial
    match pend with
    | none =>
      simp only [paraGo]
      by_cases hc : c = '\n'
      · rw [if_pos hc]
        refine ih segs cur (some (['\n'], [], false)) ?_ ?_
        · rintro b t s h
          injection h with h1
          injection h1 with hb h2
          injection h2 with ht hs
          subst hb; subst ht
          exact ⟨by intro x hx; simp at hx; subst hx; rfl, by simp⟩
        · rcases hx with ⟨d, hd, hdw⟩ | hcur | hseg
          · rcases List.mem_cons.mp hd with rfl | hd
            · subst hc; exact absurd rfl hdw
            · exact Or.inl ⟨d, hd, hdw⟩
          · exact Or.inr (Or.inl hcur)
          · exact Or.inr (Or.inr hseg)
      · rw [if_neg hc]
        refine ih segs (c :: cur) none (by simp) ?_
        rcases hx with ⟨d, hd, hdw⟩ | ⟨d, hd, hdw⟩ | hseg
        · rcases List.mem_cons.mp hd with rfl | hd
          · exact Or.inr (Or.inl ⟨d, List.mem_cons_self _ _, hdw⟩)
          · exact Or.inl ⟨d, hd, hdw⟩
        · exact Or.inr (Or.inl ⟨d, List.mem_cons_of_mem _ hd, hdw⟩)
        · exact Or.inr (Or.inr hseg)
    | some (buf, tail, saw) =>
      obtain ⟨hbuf, htail⟩ := hpend buf tail saw rfl
      simp only [paraGo]
      by_cases hws : isWS c
      · rw [if_pos hws]
        by_cases hc : c = '\n'
        · rw [if_pos hc]
          refine ih segs cur (some (c :: buf, [], true)) ?_ ?_
          · rintro b t s h
            injection h with h1
            injection h1 with hb h2
            injection h2 with ht hs
            subst hb; subst ht
            refine ⟨?_, by simp⟩
            intro x hxm
            rcases List.mem_cons.mp hxm with rfl | hxm
            · exact hws
            · exact hbuf x hxm
          · rcases hx with ⟨d, hd, hdw⟩ | hcur | hseg
            · rcases List.mem_cons.mp hd with rfl | hd
              · exact absurd hws hdw
              · exact Or.inl ⟨d, hd, hdw⟩
            · exact Or.inr (Or.inl hcur)
            · exact Or.inr (Or.inr hseg)
        · rw [if_neg hc]
          refine ih segs cur (some (c :: buf, c :: tail, saw)) ?_ ?_
          · rintro b t s h
            injection h with h1
            injection h1 with hb h2
            injection h2 with ht hs
            subst hb; subst ht
            constructor
            · intro x hxm
              rcases List.mem_cons.mp hxm with rfl | hxm
              · exact hws
              · exact hbuf x hxm
            · intro x hxm
              rcases List.mem_cons.mp hxm with rfl | hxm
              · exact hws
              · exact htail x hxm
          · rcases hx with ⟨d, hd, hdw⟩ | hcur | hseg
            · rcases List.mem_cons.mp hd with rfl | hd
              · exact absurd hws hdw
              · exact Or.inl ⟨d, hd, hdw⟩
            · exact Or.inr (Or.inl hcur)
            · exact Or.inr (Or.inr hseg)
      · rw [if_neg hws]
        cases saw with
        | true =>
          rw [if_pos rfl]
          refine ih (segs ++ [cur.reverse]) (c :: tail) none (by simp) ?_
          rcases hx with ⟨d, hd, hdw⟩ | ⟨d, hd, hdw⟩ | ⟨s, hs, hex⟩
          · rcases List.mem_cons.mp hd with rfl | hd
            · exact Or.inr (Or.inl ⟨d, List.mem_cons_self _ _, hdw⟩)
            · exact Or.inl ⟨d, hd, hdw⟩
          · exact Or.inr (Or.inr ⟨cur.reverse,
              List.mem_append_right _ (List.mem_singleton_self _),
              d, List.mem_reverse.mpr hd, hdw⟩)
          · exact Or.inr (Or.inr ⟨s, List.mem_append_left _ hs, hex⟩)
        | false =>
          rw [if_neg (by simp)]
          refine ih segs (c :: (buf ++ cur)) none (by simp) ?_
          rcases hx with ⟨d, hd, hdw⟩ | ⟨d, hd, hdw⟩ | hseg
          · rcases List.mem_cons.mp hd with rfl | hd
            · exact Or.inr (Or.inl ⟨d, List.mem_cons_self _ _, hdw⟩)
            · exact Or.inl ⟨d, hd, hdw⟩
          · exact Or.inr (Or.inl ⟨d, List.mem_cons_of_mem _
              (List.mem_append_right _ hd), hdw⟩)
          · exact Or.inr (Or.inr hseg)

theorem chunksOfGo_join (maxSize : Nat) (hmax : 0 < maxSize) :
    ∀ (fuel : Nat) (l : Str), l.length ≤ fuel →
      (chunksOfGo maxSize fuel l).flatten = l := by
  intro fuel
  induction fuel with
  | zero =>
    intro l hl
    have : l = [] := List.length_eq_zero.mp (Nat.le_zero.mp hl)
    subst this
    rfl
  | succ fuel ih =>
    intro l hl
    cases l with
    | nil => rfl
    | cons c rest =>
      have hl' : rest.length + 1 ≤ fuel + 1 := by simpa using hl
      simp only [chunksOfGo, List.flatten_cons]
      rw [ih _ (by simp only [List.length_drop, List.length_cons]; omega)]
      exact List.take_append_drop maxSize (c :: rest)

theorem exists_nonempty_slice (maxSize : Nat) (hmax : 0 < maxSize) (s : Str)
    (hs : ∃ c ∈ s, ¬ isWS c) :
    ∃ piece ∈ (chunksOf maxSize s).map trimStr, piece ≠ [] := by
  obtain ⟨c, hc, hcw⟩ := hs
  have hj := chunksOfGo_join maxSize hmax s.length s le_rfl
  rw [show s = (chunksOfGo maxSize s.length s).flatten from hj.symm] at hc
  obtain ⟨piece, hpiece, hcp⟩ := List.mem_flatten.mp hc
  refine ⟨trimStr piece, List.mem_map_of_mem _ hpiece, ?_⟩
  intro h
  rw [trimStr_eq_nil_iff] at h
  exact hcw (h c hcp)

theorem slpGo_exists (maxSize : Nat) (hmax : 0 < maxSize) :
    ∀ (sentences : List Str), sentences ≠ [] →
    (∀ s ∈ sentences, ∃ c ∈ s, ¬ isWS c) →
    ∀ (chunks : List Str) (cur : Str),
    ∃ ch ∈ slpGo maxSize sentences chunks cur, ch ≠ [] := by
  intro sentences
  induction sentences with
  | nil => intro h; exact absurd rfl h
  | cons s rest ih =>
    intro _ hall chunks cur
    have hs := hall s (List.mem_cons_self s rest)
    rcases Decidable.em (rest = []) with hrest | hrest
    · subst hrest
      simp only [slpGo]
      by_cases h1 : maxSize < s.length
      · rw [if_pos h1, if_pos trivial]
        obtain ⟨piece, hpiece, hne⟩ := exists_nonempty_slice maxSize hmax s hs
        exact ⟨piece, List.mem_append_right _ hpiece, hne⟩
      · rw [if_neg h1]
        by_cases h2 : maxSize < cur.length + s.length + 1
        · rw [if_pos h2]
          have hsne : s ≠ [] := by
            obtain ⟨c, hc, _⟩ := hs
            exact List.ne_nil_of_mem hc
          simp only [slpGo, if_neg hsne]
          refine ⟨trimStr s, List.mem_append_right _ (List.mem_singleton_self _), ?_⟩
          intro h
          rw [trimStr_eq_nil_iff] at h
          obtain ⟨c, hc, hcw⟩ := hs
          exact hcw (h c hc)
        · rw [if_neg h2]
          have hcne : (if cur = [] then s else cur ++ ' ' :: s) ≠ [] := by
            split
            · obtain ⟨c, hc, _⟩ := hs
              exact List.ne_nil_of_mem hc
            · simp
          simp only [slpGo, if_neg hcne]
          refine ⟨trimStr (if cur = [] then s else cur ++ ' ' :: s),
            List.mem_append_right _ (List.mem_singleton_self _), ?_⟩
          intro h
          rw [trimStr_eq_nil_iff] at h
          obtain ⟨c, hc, hcw⟩ := hs
          have hcin : c ∈ (if cur = [] then s else cur ++ ' ' :: s) := by
            split
            · exact hc
            · exact List.mem_append_right _ (List.mem_cons_of_mem _ hc)
          exact hcw (h c hcin)
    · have hall' : ∀ x ∈ rest, ∃ c ∈ x, ¬ isWS c :=
        fun x hx => hall x (List.mem_cons_of_mem _ hx)
      simp only [slpGo]
      by_cases h1 : maxSize < s.length
      · rw [if_pos h1]
        exact ih hrest hall' _ _
      · rw [if_neg h1]
        by_cases h2 : maxSize < cur.length + s.length + 1
        · rw [if_pos h2]
          exact ih hrest hall' _ _
        · rw [if_neg h2]
          exact ih hrest hall' _ _

theorem splitIntoSentences_all (text : Str) :
    ∀ s ∈ splitIntoSentences text, ∃ c ∈ s, ¬ isWS c := by
  intro s hs
  obtain ⟨_, hlen⟩ := List.mem_filter.mp hs
  have hne : trimStr s ≠ [] := by
    intro h
    rw [h] at hlen
    simp at hlen
  obtain ⟨c, hc, hcw⟩ := trimStr_has_non_ws s hne
  exact ⟨c, mem_of_mem_trimStr hc, hcw⟩

theorem splitIntoSentences_ne_nil (text : Str) (h : ∃ c ∈ text, ¬ isWS c) :
    splitIntoSentences text ≠ [] := by
  obtain ⟨s, hs, c, hc, hcw⟩ :=
    sentGo_cover text [] [] false (by simp) (Or.inl h)
  have hne : trimStr s ≠ [] := fun hh => hcw ((trimStr_eq_nil_iff s).mp hh c hc)
  have hmem : s ∈ splitIntoSentences text :=
    List.mem_filter.mpr ⟨hs, by simp [List.length_pos.mpr hne]⟩
  exact List.ne_nil_of_mem hmem

theorem splitLargeParagraph_exists (paragraph : Str) (maxSize : Nat)
    (hmax : 0 < maxSize) (hp : ∃ c ∈ paragraph, ¬ isWS c) :
    ∃ ch ∈ splitLargeParagraph paragraph maxSize, ch ≠ [] := by
  unfold splitLargeParagraph
  split
  · obtain ⟨c, hc, _⟩ := hp
    exact ⟨paragraph, List.mem_singleton_self _, List.ne_nil_of_mem hc⟩
  · exact slpGo_exists maxSize hmax _ (splitIntoSentences_ne_nil paragraph hp)
      (splitIntoSentences_all paragraph) [] []

theorem paragraphsOf_all (content : Str) :
    ∀ p ∈ paragraphsOf content, ∃ c ∈ p, ¬ isWS c := by
  intro p hp
  unfold paragraphsOf at hp
  obtain ⟨hmem, hlen⟩ := List.mem_filter.mp hp
  obtain ⟨q, _, rfl⟩ := List.mem_map.mp hmem
  have hne : trimStr q ≠ [] := by
    intro h
    rw [h] at hlen
    simp at hlen
  exact trimStr_has_non_ws q hne

theorem paragraphsOf_ne_nil (content : Str) (h : trimStr content ≠ []) :
    paragraphsOf content ≠ [] := by
  have hnws := trimStr_has_non_ws content h
  obtain ⟨s, hs, c, hc, hcw⟩ :=
    paraGo_cover (trimStr content) [] [] none (by simp) (Or.inl hnws)
  have hne : trimStr s ≠ [] := fun hh => hcw ((trimStr_eq_nil_iff s).mp hh c hc)
  have hmem : trimStr s ∈ paragraphsOf content :=
    List.mem_filter.mpr ⟨List.mem_map_of_mem _ hs, by simp [List.length_pos.mpr hne]⟩
  exact List.ne_nil_of_mem hmem

theorem rawChunksOf_exists (content : Str) (maxSize : Nat) (hmax : 0 < maxSize)
    (h : trimStr content ≠ []) :
    ∃ ch ∈ rawChunksOf content maxSize, ch ≠ [] := by
  obtain ⟨p, hp⟩ := List.exists_mem_of_ne_nil _ (paragraphsOf_ne_nil content h)
  obtain ⟨ch, hch, hchne⟩ :=
    splitLargeParagraph_exists p maxSize hmax (paragraphsOf_all content p hp)
  exact ⟨ch, List.mem_flatMap.mpr ⟨p, hp, hch⟩, hchne⟩

theorem mergeGo_ne (minSize maxSize : Nat) :
    ∀ (rest merged : List Str) (cur : Str),
    (merged ≠ [] ∨ cur ≠ [] ∨ ∃ ch ∈ rest, ch ≠ []) →
    (mergeGo minSize maxSize rest merged cur).1 ≠ [] ∨
      (mergeGo minSize maxSize rest merged cur).2 ≠ [] := by
  intro rest
  induction rest with
  | nil =>
    intro merged cur h
    rcases h with h | h | ⟨ch, hch, _⟩
    · exact Or.inl h
    · exact Or.inr h
    · simp at hch
  | cons ch rest ih =>
    intro merged cur h
    simp only [mergeGo]
    by_cases h0 : cur = []
    · rw [if_pos h0]
      refine ih merged ch ?_
      rcases h with h | h | ⟨x, hx, hxne⟩
      · exact Or.inl h
      · exact absurd h0 h
      · rcases List.mem_cons.mp hx with rfl | hx
        · exact Or.inr (Or.inl hxne)
        · exact Or.inr (Or.inr ⟨x, hx, hxne⟩)
    · rw [if_neg h0]
      by_cases h1 : cur.length < minSize
      · rw [if_pos h1]
        by_cases h2 : (cur ++ ' ' :: ch).length ≤ maxSize
        · rw [if_pos h2]
          exact ih merged _ (Or.inr (Or.inl (by simp)))
        · rw [if_neg h2]
          exact ih _ ch (Or.inl (by simp))
      · rw [if_neg h1]
        exact ih _ ch (Or.inl (by simp))

theorem mergeFinal_ne (minSize maxSize : Nat) (merged : List Str) (cur : Str)
    (h : merged ≠ [] ∨ cur ≠ []) :
    mergeFinal minSize maxSize merged cur ≠ [] := by
  unfold mergeFinal
  by_cases h0 : cur = []
  · rw [if_pos h0]
    rcases h with h | h
    · exact h
    · exact absurd h0 h
  · rw [if_neg h0]
    by_cases h1 : cur.length < minSize ∧ merged ≠ []
    · rw [if_pos h1]
      by_cases h2 : (merged.getLast?.getD []).length + (cur.length + 1) ≤ maxSize <;>
        simp [h2]
    · rw [if_neg h1]
      simp

theorem mergeSmallChunks_ne (chunks : List Str) (minSize maxSize : Nat)
    (h : ∃ ch ∈ chunks, ch ≠ []) :
    mergeSmallChunks chunks minSize maxSize ≠ [] := by
  unfold mergeSmallChunks
  split
  · obtain ⟨ch, hch, _⟩ := h
    exact List.ne_nil_of_mem hch
  · exact mergeFinal_ne _ _ _ _ (mergeGo_ne _ _ chunks [] [] (Or.inr (Or.inr h)))

/-- C1: `chunkDocument` returns the empty chunk list exactly when the
trimmed content is empty.  The model is a total function — matching the
claim that the JavaScript version never throws — for every
`maxChunkSize ≥ 1`; at `maxChunkSize = 0` the JavaScript hard-split loop
diverges instead of returning, so the hypothesis `0 < maxChunkSize` bounds
the claim's scope. -/
theorem chunkDocument_empty_iff (docId title content : Str)
    (options : Option ChunkOptions) (hmax : 0 < maxSizeOf options) :
    chunkDocument docId title content options = [] ↔ trimStr content = [] := by
  unfold chunkDocument
  by_cases h : (trimStr content).length = 0
  · simp [h, List.length_eq_zero.mp h]
  · simp only [h, if_false]
    constructor
    · intro hmap
      exfalso
      have hne : trimStr content ≠ [] := fun hh => h (by rw [hh]; rfl)
      have hmerge := mergeSmallChunks_ne _ (minSizeOf options) (maxSizeOf options)
        (rawChunksOf_exists content _ hmax hne)
      have hlen := congrArg List.length hmap
      simp only [List.length_map, List.enum_length, List.length_nil] at hlen
      exact hmerge (List.length_eq_zero.mp hlen)
    · intro hh
      exact absurd (by rw [hh]; rfl : (trimStr content).length = 0) h

/-- Closed witness for C1 at concrete inputs: whitespace-only content gives
no chunks. -/
theorem chunkDocument_empty_iff_witness :
    chunkDocument "d".data "t".data " \n\t ".data none = [] ↔
      trimStr " \n\t ".data = [] :=
  chunkDocument_empty_iff "d".data "t".data " \n\t ".data none (by decide)

/-! ### Merge-count monotonicity in `minChunkSize` (claim C4) -/

theorem mergeGo_lengths (minSize maxSize : Nat) :
    ∀ (rest merged : List Str) (cur : Str),
    (mergeGo minSize maxSize rest merged cur).1.map List.length =
      (natMergeGo minSize maxSize (rest.map List.length)
        (merged.map List.length) cur.length).1 ∧
    (mergeGo minSize maxSize rest merged cur).2.length =
      (natMergeGo minSize maxSize (rest.map List.length)
        (merged.map List.length) cur.length).2 := by
  intro rest
  induction rest with
  | nil => intro merged cur; exact ⟨rfl, rfl⟩
  | cons ch rest ih =>
    intro merged cur
    simp only [List.map_cons, mergeGo, natMergeGo]
    by_cases h0 : cur = []
    · rw [if_pos h0, if_pos (show List.length cur = 0 by simp [h0])]
      exact ih merged ch
    · rw [if_neg h0, if_neg (show ¬ List.length cur = 0 by simpa using h0)]
      by_cases h1 : cur.length < minSize
      · rw [if_pos h1, if_pos h1]
        have hclen : (cur ++ ' ' :: ch).length = cur.length + 1 + ch.length := by
          simp [List.length_append]
          omega
        by_cases h2 : cur.length + 1 + ch.length ≤ maxSize
        · rw [if_pos (by omega : (cur ++ ' ' :: ch).length ≤ maxSize), if_pos h2]
          have := ih merged (cur ++ ' ' :: ch)
          rwa [hclen] at this
        · rw [if_neg (by omega : ¬ (cur ++ ' ' :: ch).length ≤ maxSize), if_neg h2]
          have := ih (merged ++ [cur]) ch
          simpa using this
      · rw [if_neg h1, if_neg h1]
        have := ih (merged ++ [cur]) ch
        simpa using this

theorem mergeFinal_lengths (minSize maxSize : Nat) (merged : List Str) (cur : Str) :
    (mergeFinal minSize maxSize merged cur).map List.length =
      natMergeFinal minSize maxSize (merged.map List.length) cur.length := by
  unfold mergeFinal natMergeFinal
  by_cases h0 : cur = []
  · rw [if_pos h0, if_pos (show List.length cur = 0 by simp [h0])]
  · rw [if_neg h0, if_neg (show ¬ List.length cur = 0 by simpa using h0)]
    have hlast : (merged.map List.length).getLastD 0 =
        (merged.getLast?.getD []).length := by
      rw [List.getLastD_eq_getLast?, List.getLast?_map]
      cases merged.getLast? <;> rfl
    by_cases h1 : cur.length < minSize ∧ merged ≠ []
    · rw [if_pos h1,
        if_pos (show cur.length < minSize ∧ merged.map List.length ≠ [] by
          simpa using h1)]
      have hclen : ((merged.getLast?.getD []) ++ ' ' :: cur).length =
          (merged.map List.length).getLastD 0 + 1 + cur.length := by
        rw [hlast]
        simp only [List.length_append, List.length_cons]
        omega
      by_cases h2 : (merged.map List.length).getLastD 0 + 1 + cur.length ≤ maxSize
      · rw [if_pos (by omega : ((merged.getLast?.getD []) ++ ' ' :: cur).length ≤ maxSize),
          if_pos h2]
        simp [List.map_dropLast, hclen]
      · rw [if_neg (by omega : ¬ ((merged.getLast?.getD []) ++ ' ' :: cur).length ≤ maxSize),
          if_neg h2]
        simp
    · rw [if_neg h1,
        if_neg (show ¬ (cur.length < minSize ∧ merged.map List.length ≠ []) by
          simpa using h1)]
      simp

theorem mergeSmallChunks_length (chunks : List Str) (minSize maxSize : Nat) :
    (mergeSmallChunks chunks minSize maxSize).length =
      (natMerge (chunks.map List.length) minSize maxSize).length := by
  unfold mergeSmallChunks natMerge
  by_cases h : chunks.length ≤ 1
  · rw [if_pos h, if_pos (by simpa using h)]
    simp
  · rw [if_neg h, if_neg (by simpa using h)]
    have hgo := mergeGo_lengths minSize maxSize chunks [] []
    simp only [List.map_nil, List.length_nil] at hgo
    have hfin := mergeFinal_lengths minSize maxSize
      (mergeGo minSize maxSize chunks [] []).1 (mergeGo minSize maxSize chunks [] []).2
    calc (mergeFinal minSize maxSize (mergeGo minSize maxSize chunks [] []).1
          (mergeGo minSize maxSize chunks [] []).2).length
        = ((mergeFinal minSize maxSize (mergeGo minSize maxSize chunks [] []).1
            (mergeGo minSize maxSize chunks [] []).2).map List.length).length := by
          simp
      _ = (natMergeFinal minSize maxSize
            ((mergeGo minSize maxSize chunks [] []).1.map List.length)
            (mergeGo minSize maxSize chunks [] []).2.length).length := by rw [hfin]
      _ = (natMergeFinal minSize maxSize
            (natMergeGo minSize maxSize (chunks.map List.length) [] 0).1
            (natMergeGo minSize maxSize (chunks.map List.length) [] 0).2).length := by
          rw [hgo.1, hgo.2]

theorem natMergeInv_step (m1 m2 mx : Nat) (hm : m1 ≤ m2) (L : Nat) (hL : 1 ≤ L)
    (M1 M2 : List Nat) (u1 u2 : Nat) (hu1 : 1 ≤ u1) (hu2 : 1 ≤ u2)
    (h : natMergeInv (M1, u1) (M2, u2)) :
    natMergeInv
      (if u1 < m1 then
        (if u1 + 1 + L ≤ mx then (M1, u1 + 1 + L) else (M1 ++ [u1], L))
       else (M1 ++ [u1], L))
      (if u2 < m2 then
        (if u2 + 1 + L ≤ mx then (M2, u2 + 1 + L) else (M2 ++ [u2], L))
       else (M2 ++ [u2], L)) := by
  rcases h with ⟨hlen, huu, hlast⟩ | ⟨hlen, huu⟩ | hlen <;>
    by_cases A1 : u1 < m1 <;> by_cases B1 : u1 + 1 + L ≤ mx <;>
    by_cases A2 : u2 < m2 <;> by_cases B2 : u2 + 1 + L ≤ mx <;>
    simp only [A1, A2, B1, B2, if_true, if_false, natMergeInv,
      List.getLastD_concat, List.length_append, List.length_cons,
      List.length_nil] <;>
    omega

theorem natMergeGo_inv (m1 m2 mx : Nat) (hm : m1 ≤ m2) :
    ∀ (l : List Nat), (∀ x ∈ l, 1 ≤ x) →
    ∀ (M1 M2 : List Nat) (u1 u2 : Nat), 1 ≤ u1 → 1 ≤ u2 →
    natMergeInv (M1, u1) (M2, u2) →
    natMergeInv (natMergeGo m1 mx l M1 u1) (natMergeGo m2 mx l M2 u2) ∧
    1 ≤ (natMergeGo m1 mx l M1 u1).2 ∧ 1 ≤ (natMergeGo m2 mx l M2 u2).2 := by
  intro l
  induction l with
  | nil =>
    intro _ M1 M2 u1 u2 hu1 hu2 hinv
    exact ⟨hinv, hu1, hu2⟩
  | cons L rest ih =>
    intro hpos M1 M2 u1 u2 hu1 hu2 hinv
    have hL : 1 ≤ L := hpos L (List.mem_cons_self _ _)
    have hrest : ∀ x ∈ rest, 1 ≤ x := fun x hx => hpos x (List.mem_cons_of_mem _ hx)
    have hstep := natMergeInv_step m1 m2 mx hm L hL M1 M2 u1 u2 hu1 hu2 hinv
    simp only [natMergeGo, if_neg (show ¬ u1 = 0 by omega),
      if_neg (show ¬ u2 = 0 by omega)]
    by_cases A1 : u1 < m1 <;> by_cases B1 : u1 + 1 + L ≤ mx <;>
      by_cases A2 : u2 < m2 <;> by_cases B2 : u2 + 1 + L ≤ mx <;>
      simp only [A1, A2, B1, B2, if_true, if_false] at hstep ⊢ <;>
      exact ih hrest _ _ _ _ (by omega) (by omega) hstep

theorem natMergeFinal_length_bounds (m mx : Nat) (M : List Nat) (u : Nat)
    (hu : 1 ≤ u) :
    M.length ≤ (natMergeFinal m mx M u).length ∧
    (natMergeFinal m mx M u).length ≤ M.length + 1 := by
  unfold natMergeFinal
  rw [if_neg (by omega)]
  by_cases h1 : u < m ∧ M ≠ []
  · rw [if_pos h1]
    by_cases h2 : M.getLastD 0 + 1 + u ≤ mx
    · rw [if_pos h2]
      have := List.length_pos.mpr h1.2
      simp only [List.length_append, List.length_dropLast, List.length_cons,
        List.length_nil]
      omega
    · rw [if_neg h2]
      simp only [List.length_append, List.length_cons, List.length_nil]
      omega
  · rw [if_neg h1]
    simp only [List.length_append, List.length_cons, List.length_nil]
    omega

theorem natMergeFinal_count (m1 m2 mx : Nat) (hm : m1 ≤ m2)
    (M1 M2 : List Nat) (u1 u2 : Nat) (hu1 : 1 ≤ u1) (hu2 : 1 ≤ u2)
    (hinv : natMergeInv (M1, u1) (M2, u2)) :
    (natMergeFinal m2 mx M2 u2).length ≤ (natMergeFinal m1 mx M1 u1).length := by
  have hb1 := natMergeFinal_length_bounds m1 mx M1 u1 hu1
  have hb2 := natMergeFinal_length_bounds m2 mx M2 u2 hu2
  rcases hinv with ⟨hlen, huu, hlast⟩ | ⟨hlen, _⟩ | hlen
  · by_cases hcond : u1 < m1 ∧ M1 ≠ [] ∧ M1.getLastD 0 + 1 + u1 ≤ mx
    · have hM2ne : M2 ≠ [] := by
        intro hh
        rw [hh] at hlen
        simp only [List.length_nil] at hlen
        exact hcond.2.1 (List.length_eq_zero.mp hlen)
      have h1eq : (natMergeFinal m1 mx M1 u1).length = M1.length := by
        unfold natMergeFinal
        rw [if_neg (by omega), if_pos ⟨hcond.1, hcond.2.1⟩, if_pos hcond.2.2]
        have := List.length_pos.mpr hcond.2.1
        simp only [List.length_append, List.length_dropLast, List.length_cons,
          List.length_nil]
        omega
      have h2eq : (natMergeFinal m2 mx M2 u2).length = M2.length := by
        unfold natMergeFinal
        rw [if_neg (by omega), if_pos ⟨by omega, hM2ne⟩, if_pos (by omega)]
        have := List.length_pos.mpr hM2ne
        simp only [List.length_append, List.length_dropLast, List.length_cons,
          List.length_nil]
        omega
      omega
    · have h1eq : (natMergeFinal m1 mx M1 u1).length = M1.length + 1 := by
        unfold natMergeFinal
        rw [if_neg (by omega)]
        by_cases hA : u1 < m1 ∧ M1 ≠ []
        · rw [if_pos hA,
            if_neg (fun hh => hcond ⟨hA.1, hA.2, hh⟩)]
          simp only [List.length_append, List.length_cons, List.length_nil]
        · rw [if_neg hA]
          simp only [List.length_append, List.length_cons, List.length_nil]
      omega
  · omega
  · omega

theorem natMerge_count_mono (mx m1 m2 : Nat) (hm : m1 ≤ m2) (l : List Nat)
    (hpos : ∀ x ∈ l, 1 ≤ x) :
    (natMerge l m2 mx).length ≤ (natMerge l m1 mx).length := by
  cases l with
  | nil => simp [natMerge]
  | cons a rest =>
    unfold natMerge
    by_cases h : (a :: rest).length ≤ 1
    · rw [if_pos h, if_pos h]
    · rw [if_neg h, if_neg h]
      have ha : 1 ≤ a := hpos a (List.mem_cons_self _ _)
      have hrest : ∀ x ∈ rest, 1 ≤ x := fun x hx => hpos x (List.mem_cons_of_mem _ hx)
      rw [show natMergeGo m1 mx (a :: rest) [] 0 = natMergeGo m1 mx rest [] a from rfl,
        show natMergeGo m2 mx (a :: rest) [] 0 = natMergeGo m2 mx rest [] a from rfl]
      have hinv0 : natMergeInv ([], a) ([], a) := Or.inl ⟨rfl, le_rfl, le_rfl⟩
      obtain ⟨hinv, hcur1, hcur2⟩ :=
        natMergeGo_inv m1 m2 mx hm rest hrest [] [] a a ha ha hinv0
      exact natMergeFinal_count m1 m2 mx hm
        (natMergeGo m1 mx rest [] a).1 (natMergeGo m2 mx rest [] a).1
        (natMergeGo m1 mx rest [] a).2 (natMergeGo m2 mx rest [] a).2
        hcur1 hcur2 hinv

theorem chunkDocument_length_natMerge (docId title content : Str)
    (options : Option ChunkOptions) :
    (chunkDocument docId title content options).length =
      (natMerge ((rawChunksOf content (maxSizeOf options)).map List.length)
        (minSizeOf options) (maxSizeOf options)).length := by
  unfold chunkDocument
  by_cases h : (trimStr content).length = 0
  · rw [if_pos h]
    have hpar : paragraphsOf content = [] := by
      unfold paragraphsOf
      rw [List.length_eq_zero.mp h]
      rfl
    unfold rawChunksOf
    rw [hpar]
    rfl
  · rw [if_neg h]
    simp only [List.length_map, List.enum_length]
    exact mergeSmallChunks_length _ _ _

/-- C4, amended: raising `minChunkSize` (same content and `maxChunkSize`)
never increases the chunk count, provided every raw chunk produced by the
paragraph/sentence splitting phase is nonempty (equivalently: no hard-split
slice of an oversized sentence is whitespace-only).  Without that proviso
the claim is false — see the counterexample theorem. -/
theorem chunkDocument_count_minSize_mono (docId title content : Str)
    (mx m1 m2 : Nat) (hmax : 0 < mx) (hm : m1 ≤ m2)
    (hraw : ∀ ch ∈ rawChunksOf content mx, ch ≠ []) :
    (chunkDocument docId title content (some ⟨some mx, some m2⟩)).length ≤
      (chunkDocument docId title content (some ⟨some mx, some m1⟩)).length := by
  rw [chunkDocument_length_natMerge docId title content (some ⟨some mx, some m2⟩),
    chunkDocument_length_natMerge docId title content (some ⟨some mx, some m1⟩)]
  refine natMerge_count_mono mx m1 m2 hm _ ?_
  intro x hx
  obtain ⟨ch, hch, rfl⟩ := List.mem_map.mp hx
  exact List.length_pos.mpr (hraw ch hch)

/-- Counterexample to C4 as stated: on content `"ab        c"` with
`maxChunkSize = 4`, raising `minChunkSize` from 2 to 3 increases the chunk
count from 1 to 2 (the middle hard-split slice is whitespace-only and trims
to the empty string, which derails the merge loop's `!currentChunk`
branch). -/
theorem chunkDocument_count_minSize_cex :
    (chunkDocument "d".data "t".data "ab        c".data
      (some ⟨some 4, some 2⟩)).length = 1 ∧
    (chunkDocument "d".data "t".data "ab        c".data
      (some ⟨some 4, some 3⟩)).length = 2 := by
  decide

/-- Closed witness for the amended C4 at a concrete input. -/
theorem chunkDocument_count_minSize_mono_witness :
    (chunkDocument "d".data "t".data "Hi. Yo.".data
      (some ⟨some 500, some 100⟩)).length ≤
    (chunkDocument "d".data "t".data "Hi. Yo.".data
      (some ⟨some 500, some 3⟩)).length :=
  chunkDocument_count_minSize_mono "d".data "t".data "Hi. Yo.".data 500 3 100
    (by decide) (by decide) (by decide)
